import Mathlib

/-!
Verification of the Connect Four engine (`AI_connect_4.py`, `FirstVersion_connect4.py`).

The board is a 6 × 5 grid (`ROWS = 6`, `COLS = 5`); `board[row][col]` holds
`0` (empty), `1` (human piece) or `2` (AI piece), rows numbered from the top.
We embed the cells as the inductive type `Cell` and a board as a total
function `Fin 6 → Fin 5 → Cell`, which is exactly the value space of the
well-formed 6 × 5 Python boards produced by `create_board` and `make_move`.
Scores are integers extended with the two floating-point infinities the
source uses as win/loss sentinels, embedded as `WithBot (WithTop ℤ)`.
-/

/-- Content of one board cell: `EMPTY = 0`, `HUMAN_PIECE = 1`, `AI_PIECE = 2`. -/
inductive Cell where
  | empty
  | human
  | ai
deriving DecidableEq, Fintype

/-- `ROWS = 6` in both source files. -/
abbrev ROWS : Nat := 6

/-- `COLS = 5` in both source files. -/
abbrev COLS : Nat := 5

/-- A Connect Four position: the 6 × 5 grid, `b r c` = cell at row `r`, column `c`,
row 0 at the top. -/
abbrev Board := Fin ROWS → Fin COLS → Cell

/-- `create_board`: all cells empty. -/
def create_board : Board := fun _ _ => Cell.empty

/-- `is_valid_move(board, col)` for an in-range column: `board[0][col] == EMPTY`. -/
def is_valid_move (b : Board) (c : Fin COLS) : Bool :=
  b 0 c == Cell.empty

/-- Python list indexing on the length-5 top row `board[0]`: an index in `[0, 5)`
is used directly, an index in `[-5, 0)` wraps around to `index + 5`, and any
other index raises `IndexError` (modelled as `none`). -/
def pyIndexFin (i : Int) : Option (Fin COLS) :=
  if h : 0 ≤ i ∧ i < COLS then some ⟨i.toNat, by omega⟩
  else if h2 : -(COLS : Int) ≤ i ∧ i < 0 then some ⟨(i + COLS).toNat, by omega⟩
  else none

/-- `is_valid_move(board, col)` as executed on an arbitrary integer column:
the source evaluates `board[0][col] == EMPTY`, so the column index goes through
Python list indexing (`pyIndexFin`); `none` models the `IndexError` raised when
`col` is out of Python's index range. -/
def is_valid_move_py (b : Board) (col : Int) : Option Bool :=
  (pyIndexFin col).map fun c => b 0 c == Cell.empty

/-- `get_valid_moves(board)`: the columns `0, 1, 2, 3, 4` (in this order) whose
top cell is empty. -/
def get_valid_moves (b : Board) : List (Fin COLS) :=
  (List.finRange COLS).filter fun c => is_valid_move b c

/-- Write `p` into cell `(r, c)`, leaving every other cell unchanged. -/
def setCell (b : Board) (r : Fin ROWS) (c : Fin COLS) (p : Cell) : Board :=
  fun r' c' => if r' = r ∧ c' = c then p else b r' c'

/-- The scan `for row in range(ROWS-1, -1, -1): if board[row][col] == EMPTY: …`
of `make_move`: starting from row `k - 1` and walking upward, the first row whose
cell in column `c` is empty; `none` when the loop finishes without a break. -/
def lowestEmptyAux (b : Board) (c : Fin COLS) : (k : Nat) → k ≤ ROWS → Option (Fin ROWS)
  | 0, _ => none
  | k + 1, h =>
    if b ⟨k, by omega⟩ c = Cell.empty then some ⟨k, by omega⟩
    else lowestEmptyAux b c k (by omega)

/-- `make_move(board, col, piece)`: the piece falls to the lowest empty cell of
the column. The source deep-copies the board and mutates the copy; at the level
of board values this is: update the lowest empty cell when one exists, and
return the board unchanged when the column has no empty cell (the loop body
never fires and the untouched copy is returned). The aliasing behaviour of the
deep copy itself is modelled separately by `make_move_heap`. -/
def make_move (b : Board) (c : Fin COLS) (p : Cell) : Board :=
  match lowestEmptyAux b c ROWS (by omega) with
  | none => b
  | some r => setCell b r c p

/-- The horizontal window of `check_win`/`evaluate_board` starting at `(r, c)`:
cells `(r, c), (r, c+1), (r, c+2), (r, c+3)`. -/
def hWin (b : Board) (r : Fin ROWS) (c : Fin (COLS - 3)) : List Cell :=
  [b r ⟨c.1, by omega⟩, b r ⟨c.1 + 1, by omega⟩, b r ⟨c.1 + 2, by omega⟩,
    b r ⟨c.1 + 3, by omega⟩]

/-- The vertical window starting at `(r, c)`: cells `(r, c) … (r+3, c)`. -/
def vWin (b : Board) (r : Fin (ROWS - 3)) (c : Fin COLS) : List Cell :=
  [b ⟨r.1, by omega⟩ c, b ⟨r.1 + 1, by omega⟩ c, b ⟨r.1 + 2, by omega⟩ c,
    b ⟨r.1 + 3, by omega⟩ c]

/-- The down-right diagonal window starting at `(r, c)`:
cells `(r+i, c+i)` for `i = 0 … 3`. -/
def dWin (b : Board) (r : Fin (ROWS - 3)) (c : Fin (COLS - 3)) : List Cell :=
  [b ⟨r.1, by omega⟩ ⟨c.1, by omega⟩, b ⟨r.1 + 1, by omega⟩ ⟨c.1 + 1, by omega⟩,
    b ⟨r.1 + 2, by omega⟩ ⟨c.1 + 2, by omega⟩, b ⟨r.1 + 3, by omega⟩ ⟨c.1 + 3, by omega⟩]

/-- The up-right diagonal window of the loop `for row in range(3, ROWS)`:
for `r` ranging over `0 … 2` the source row is `r + 3` and the cells are
`(r+3-i, c+i)` for `i = 0 … 3`. -/
def uWin (b : Board) (r : Fin (ROWS - 3)) (c : Fin (COLS - 3)) : List Cell :=
  [b ⟨r.1 + 3, by omega⟩ ⟨c.1, by omega⟩, b ⟨r.1 + 2, by omega⟩ ⟨c.1 + 1, by omega⟩,
    b ⟨r.1 + 1, by omega⟩ ⟨c.1 + 2, by omega⟩, b ⟨r.1, by omega⟩ ⟨c.1 + 3, by omega⟩]

/-- `check_win(board, piece)`: some horizontal, vertical or diagonal 4-cell
window consists of four cells equal to `piece`. The window enumeration is the
source's loop nest; the source compares the four cells one by one, which is
`List.all` over the window. -/
def check_win (b : Board) (piece : Cell) : Bool :=
  ((List.finRange ROWS).any fun r => (List.finRange (COLS - 3)).any fun c =>
      (hWin b r c).all (· == piece))
  || ((List.finRange COLS).any fun c => (List.finRange (ROWS - 3)).any fun r =>
      (vWin b r c).all (· == piece))
  || ((List.finRange (ROWS - 3)).any fun r => (List.finRange (COLS - 3)).any fun c =>
      (dWin b r c).all (· == piece))
  || ((List.finRange (ROWS - 3)).any fun r => (List.finRange (COLS - 3)).any fun c =>
      (uWin b r c).all (· == piece))

/-- `check_tie(board)`: `all(board[0][col] != EMPTY for col in range(COLS))` —
only the top row is consulted, wins are not. -/
def check_tie (b : Board) : Bool :=
  (List.finRange COLS).all fun c => !(b 0 c == Cell.empty)

/-- `evaluate_window(window, piece)`: count-based scoring of one 4-cell window. -/
def evaluate_window (w : List Cell) (piece : Cell) : Int :=
  let opponent_piece := if piece = Cell.ai then Cell.human else Cell.ai
  let our_pieces := w.count piece
  let opponent_pieces := w.count opponent_piece
  let empty_spaces := w.count Cell.empty
  (if our_pieces = 4 then (100 : Int)
   else if our_pieces = 3 ∧ empty_spaces = 1 then 5
   else if our_pieces = 2 ∧ empty_spaces = 2 then 2
   else 0)
  + (if opponent_pieces = 3 ∧ empty_spaces = 1 then -4 else 0)

/-- `evaluate_board(board, piece)`: center-column bonus plus `evaluate_window`
summed over every horizontal, vertical and diagonal window. -/
def evaluate_board (b : Board) (piece : Cell) : Int :=
  (((List.finRange ROWS).map fun r => b r ⟨COLS / 2, by decide⟩).count piece : Int) * 3
  + ((List.finRange ROWS).map fun r =>
      ((List.finRange (COLS - 3)).map fun c => evaluate_window (hWin b r c) piece).sum).sum
  + ((List.finRange COLS).map fun c =>
      ((List.finRange (ROWS - 3)).map fun r => evaluate_window (vWin b r c) piece).sum).sum
  + ((List.finRange (ROWS - 3)).map fun r =>
      ((List.finRange (COLS - 3)).map fun c => evaluate_window (dWin b r c) piece).sum).sum
  + ((List.finRange (ROWS - 3)).map fun r =>
      ((List.finRange (COLS - 3)).map fun c => evaluate_window (uWin b r c) piece).sum).sum

/-- `is_terminal_node(board)`: someone has won or the top row is full. -/
def is_terminal_node (b : Board) : Bool :=
  check_win b Cell.human || check_win b Cell.ai || check_tie b

/-- Search scores: integers together with the two `math.inf` sentinels. -/
abbrev Score := WithBot (WithTop ℤ)

/-- `-math.inf`. -/
def negInf : Score := ⊥

/-- `math.inf`. -/
def posInf : Score := ((⊤ : WithTop ℤ) : Score)

/-- An ordinary integer score. -/
def intScore (n : ℤ) : Score := ((n : WithTop ℤ) : Score)

/-- The value `minimax` returns at `depth == 0` or at a terminal node:
`+inf` when the AI has won, `-inf` when the human has won, otherwise the
static evaluation from the AI's perspective. -/
def leafScore (b : Board) : Score :=
  if check_win b Cell.ai then posInf
  else if check_win b Cell.human then negInf
  else intScore (evaluate_board b Cell.ai)

/-- The version-2 move ordering of `minimax`: score each move by applying it
(with the side to move's piece) and statically evaluating the child from the
AI's perspective, then sort descending for the maximizing ply and ascending
for the minimizing ply. -/
def order_moves (b : Board) (maxim : Bool) (moves : List (Fin COLS)) : List (Fin COLS) :=
  let move_scores := moves.map fun m =>
    (evaluate_board (make_move b m (if maxim then Cell.ai else Cell.human)) Cell.ai, m)
  let sorted := if maxim then move_scores.mergeSort fun x y => decide (y.1 ≤ x.1)
                else move_scores.mergeSort fun x y => decide (x.1 ≤ y.1)
  sorted.map (·.2)

/-- The list of moves `minimax` iterates over: `get_valid_moves`, reordered by
`order_moves` when `version == 2`. -/
def orderedMoves (b : Board) (maxim : Bool) (version : Nat) : List (Fin COLS) :=
  if version = 2 then order_moves b maxim (get_valid_moves b) else get_valid_moves b

/-- The maximizing loop of `minimax`: `value` starts at `-inf`; for each move the
child score is fetched with the current window, `value`/`best_move` are updated
on strict improvement, `alpha` is raised to `value`, and the loop breaks once
`alpha >= beta`. `c m a` stands for the child score of move `m` searched with
window `(a, β)`. -/
def abMaxLoop (c : Fin COLS → Score → Score) (β : Score) :
    List (Fin COLS) → Score → Score → Fin COLS → Score × Fin COLS
  | [], _, value, best => (value, best)
  | m :: rest, α, value, best =>
    let s := c m α
    let value' := if value < s then s else value
    let best' := if value < s then m else best
    let α' := max α value'
    if β ≤ α' then (value', best') else abMaxLoop c β rest α' value' best'

/-- The minimizing loop of `minimax`: mirror image of `abMaxLoop` — `value`
starts at `+inf`, `beta` is lowered, and the loop breaks once `alpha >= beta`.
`c m bb` stands for the child score of move `m` searched with window `(α, bb)`. -/
def abMinLoop (c : Fin COLS → Score → Score) (α : Score) :
    List (Fin COLS) → Score → Score → Fin COLS → Score × Fin COLS
  | [], _, value, best => (value, best)
  | m :: rest, β, value, best =>
    let s := c m β
    let value' := if s < value then s else value
    let best' := if s < value then m else best
    let β' := min β value'
    if β' ≤ α then (value', best') else abMinLoop c α rest β' value' best'

/-- `minimax(board, depth, alpha, beta, maximizingPlayer, start_time, time_limit,
version)` of `AI_connect_4.py`. The wall-clock test
`time.time() - start_time > time_limit` is modelled by the boolean `timeUp`;
the claims under verification all concern runs with no time pressure
(`timeUp = false`, the deadline is never reached). The default
`best_move = random.choice(valid_moves)` picks an arbitrary element of the move
list; it is modelled as the first element — the returned score never depends on
this default, and the list is nonempty whenever the line runs (the node is not
a tie, so some column is open). -/
def minimax (b : Board) (depth : Nat) (α β : Score) (maxim : Bool) (timeUp : Bool)
    (version : Nat) : Score × Option (Fin COLS) :=
  if timeUp then (intScore (evaluate_board b Cell.ai), none)
  else
    match depth with
    | 0 => (leafScore b, none)
    | d + 1 =>
      if is_terminal_node b then (leafScore b, none)
      else if maxim then
        let r := abMaxLoop
          (fun m a => (minimax (make_move b m Cell.ai) d a β false timeUp version).1)
          β (orderedMoves b maxim version) α negInf ((orderedMoves b maxim version).headD 0)
        (r.1, some r.2)
      else
        let r := abMinLoop
          (fun m bb => (minimax (make_move b m Cell.human) d α bb true timeUp version).1)
          α (orderedMoves b maxim version) β posInf ((orderedMoves b maxim version).headD 0)
        (r.1, some r.2)

/-- The plain (un-pruned) minimax value of a position at a given depth, with the
same leaf evaluation as `minimax`: the reference value both alpha-beta variants
are proved to compute at the full window. -/
def mmV : Nat → Board → Bool → Score
  | 0, b, _ => leafScore b
  | d + 1, b, maxim =>
    if is_terminal_node b then leafScore b
    else if maxim then
      (get_valid_moves b).foldl
        (fun acc m => max acc (mmV d (make_move b m Cell.ai) false)) negInf
    else
      (get_valid_moves b).foldl
        (fun acc m => min acc (mmV d (make_move b m Cell.human) true)) posInf

/-- Heap lookup: a Python board value is a list of row references (addresses into
`rows`); `rowVal rows a` is the row object stored at address `a`. -/
def rowVal (rows : List (List Cell)) (a : Nat) : List Cell :=
  rows.getD a []

/-- The bottom-up scan of `make_move` over the copied row values: the largest row
index whose cell in column `col` is empty (first hit of the descending loop). -/
def findFromBottom (vals : List (List Cell)) (col : Nat) : Option Nat :=
  (List.range vals.length).reverse.find? fun r =>
    (rowVal vals r).getD col Cell.human == Cell.empty

/-- Heap-level model of `make_move` capturing the aliasing of the source: a board
is a list of row addresses into the heap `rows`; `copy.deepcopy` allocates fresh
rows (at addresses `base, base+1, …` past the end of the heap) holding copies of
the referenced row values, and the single write `new_board[row][col] = piece`
mutates one of those fresh rows. Returns the new heap and the new board's
addresses. -/
def make_move_heap (rows : List (List Cell)) (bref : List Nat) (col : Nat) (p : Cell) :
    List (List Cell) × List Nat :=
  let base := rows.length
  let copied := bref.map (rowVal rows)
  let rows1 := rows ++ copied
  let nref := (List.range bref.length).map (· + base)
  match findFromBottom copied col with
  | none => (rows1, nref)
  | some r => ((rows1.set (base + r) ((rowVal rows1 (base + r)).set col p)), nref)

/-- The number of occupied cells in column `c` of a board. -/
def colCount (b : Board) (c : Fin COLS) : Nat :=
  (List.finRange ROWS).countP fun r => b r c != Cell.empty

/-- The gravity invariant: in every column, every cell below an occupied cell
(rows count from the top, so below means a larger row index) is occupied. -/
def Grav (b : Board) : Prop :=
  ∀ (c : Fin COLS) (r r' : Fin ROWS), r.1 ≤ r'.1 → b r c ≠ Cell.empty → b r' c ≠ Cell.empty

/-- A board whose column 0 is completely full (of human pieces) and otherwise empty. -/
def colFullBoard : Board := fun _ c => if c = 0 then Cell.human else Cell.empty

/-- The board every cell of which holds a human piece. -/
def fullHumanBoard : Board := fun _ _ => Cell.human

/-! ### Order and fold helper lemmas -/

theorem negInf_le (s : Score) : negInf ≤ s := bot_le

theorem le_posInf (s : Score) : s ≤ posInf := by
  cases s with
  | none => exact bot_le
  | some x => exact WithBot.coe_le_coe.mpr le_top

theorem negInf_lt_posInf : negInf < posInf := WithBot.bot_lt_coe _

section FoldOrder

variable {γ : Type*} [LinearOrder γ] {ι : Type*}

theorem ite_lt_eq_max (a s : γ) : (if a < s then s else a) = max a s := by
  rcases le_or_lt s a with h | h
  · rw [if_neg (not_lt.mpr h), max_eq_left h]
  · rw [if_pos h, max_eq_right h.le]

theorem ite_lt_eq_min (a s : γ) : (if s < a then s else a) = min a s := by
  rcases le_or_lt a s with h | h
  · rw [if_neg (not_lt.mpr h), min_eq_left h]
  · rw [if_pos h, min_eq_right h.le]

theorem le_foldlMax (f : ι → γ) (init : γ) (l : List ι) :
    init ≤ l.foldl (fun a m => max a (f m)) init := by
  induction l generalizing init with
  | nil => exact le_refl _
  | cons m rest ih => exact le_trans (le_max_left _ _) (ih _)

theorem foldlMin_le (f : ι → γ) (init : γ) (l : List ι) :
    l.foldl (fun a m => min a (f m)) init ≤ init := by
  induction l generalizing init with
  | nil => exact le_refl _
  | cons m rest ih => exact le_trans (ih _) (min_le_left _ _)

theorem foldlMax_mono (f : ι → γ) {i j : γ} (h : i ≤ j) (l : List ι) :
    l.foldl (fun a m => max a (f m)) i ≤ l.foldl (fun a m => max a (f m)) j := by
  induction l generalizing i j with
  | nil => exact h
  | cons m rest ih => exact ih (max_le_max h (le_refl _))

theorem foldlMin_mono (f : ι → γ) {i j : γ} (h : i ≤ j) (l : List ι) :
    l.foldl (fun a m => min a (f m)) i ≤ l.foldl (fun a m => min a (f m)) j := by
  induction l generalizing i j with
  | nil => exact h
  | cons m rest ih => exact ih (min_le_min h (le_refl _))

theorem foldlMax_absorb (f : ι → γ) (x : γ) (l : List ι) :
    ∀ y, l.foldl (fun a m => max a (f m)) (max x y) =
      max x (l.foldl (fun a m => max a (f m)) y) := by
  induction l with
  | nil => intro y; rfl
  | cons m rest ih =>
    intro y
    show rest.foldl _ (max (max x y) (f m)) = max x (rest.foldl _ (max y (f m)))
    rw [max_assoc]
    exact ih (max y (f m))

theorem foldlMin_absorb (f : ι → γ) (x : γ) (l : List ι) :
    ∀ y, l.foldl (fun a m => min a (f m)) (min x y) =
      min x (l.foldl (fun a m => min a (f m)) y) := by
  induction l with
  | nil => intro y; rfl
  | cons m rest ih =>
    intro y
    show rest.foldl _ (min (min x y) (f m)) = min x (rest.foldl _ (min y (f m)))
    rw [min_assoc]
    exact ih (min y (f m))

theorem foldlMax_perm (f : ι → γ) {l₁ l₂ : List ι} (h : l₁.Perm l₂) :
    ∀ init, l₁.foldl (fun a m => max a (f m)) init =
      l₂.foldl (fun a m => max a (f m)) init := by
  induction h with
  | nil => intro init; rfl
  | cons x _ ih => intro init; exact ih _
  | swap x y l =>
    intro init
    show l.foldl _ (max (max init (f y)) (f x)) = l.foldl _ (max (max init (f x)) (f y))
    rw [sup_right_comm]
  | trans _ _ ih₁ ih₂ => intro init; exact (ih₁ _).trans (ih₂ _)

theorem foldlMin_perm (f : ι → γ) {l₁ l₂ : List ι} (h : l₁.Perm l₂) :
    ∀ init, l₁.foldl (fun a m => min a (f m)) init =
      l₂.foldl (fun a m => min a (f m)) init := by
  induction h with
  | nil => intro init; rfl
  | cons x _ ih => intro init; exact ih _
  | swap x y l =>
    intro init
    show l.foldl _ (min (min init (f y)) (f x)) = l.foldl _ (min (min init (f x)) (f y))
    rw [inf_right_comm]
  | trans _ _ ih₁ ih₂ => intro init; exact (ih₁ _).trans (ih₂ _)

end FoldOrder

theorem map_snd_scored (g : Fin COLS → Int) (l : List (Fin COLS)) :
    ((l.map fun m => (g m, m)).map (·.2)) = l := by
  induction l with
  | nil => rfl
  | cons m rest ih => simp only [List.map_cons, ih]

theorem order_moves_perm (b : Board) (maxim : Bool) (l : List (Fin COLS)) :
    (order_moves b maxim l).Perm l := by
  unfold order_moves
  split
  · refine List.Perm.trans (List.Perm.map _ (List.mergeSort_perm _ _)) ?_
    rw [map_snd_scored]
  · refine List.Perm.trans (List.Perm.map _ (List.mergeSort_perm _ _)) ?_
    rw [map_snd_scored]

theorem orderedMoves_perm (b : Board) (maxim : Bool) (ver : Nat) :
    (orderedMoves b maxim ver).Perm (get_valid_moves b) := by
  unfold orderedMoves
  by_cases hv : ver = 2
  · rw [if_pos hv]; exact order_moves_perm b maxim _
  · rw [if_neg hv]


/-! ### Fail-soft bracketing of the alpha-beta loops

`abMaxLoop_bounds` / `abMinLoop_bounds` are the classical fail-soft alpha-beta
bounds: if each child score `c m a` is bracketed by the child's true value
`vf m` relative to its window, then the loop result is bracketed by the fold of
the true values relative to `(α, β)`; at a full window the brackets collapse to
equality. -/

theorem abMaxLoop_bounds (c : Fin COLS → Score → Score) (vf : Fin COLS → Score) (β : Score) :
    ∀ (ms : List (Fin COLS)) (α value : Score) (best : Fin COLS),
      (∀ m ∈ ms, ∀ a, a < β → min β (vf m) ≤ c m a ∧ c m a ≤ max a (vf m)) →
      α < β → value ≤ α →
      min β (ms.foldl (fun acc m => max acc (vf m)) value) ≤ (abMaxLoop c β ms α value best).1 ∧
      (abMaxLoop c β ms α value best).1 ≤
        max α (ms.foldl (fun acc m => max acc (vf m)) value) := by
  intro ms
  induction ms with
  | nil =>
    intro α value best _ hαβ hva
    exact ⟨min_le_right _ _, le_trans hva (le_max_left _ _)⟩
  | cons m rest ih =>
    intro α value best hc hαβ hva
    obtain ⟨hs1, hs2⟩ := hc m (List.mem_cons_self m rest) α hαβ
    simp only [abMaxLoop, ite_lt_eq_max, List.foldl_cons]
    have hvfW : vf m ≤ rest.foldl (fun acc m => max acc (vf m)) (max value (vf m)) :=
      le_trans (le_max_right _ _) (le_foldlMax _ _ _)
    by_cases hcut : β ≤ max α (max value (c m α))
    · rw [if_pos hcut]
      constructor
      · have hβ : β ≤ max value (c m α) := by
          rcases le_max_iff.mp hcut with h | h
          · exact absurd h (not_le.mpr hαβ)
          · exact h
        exact le_trans (min_le_left _ _) hβ
      · refine max_le (le_trans hva (le_max_left _ _)) ?_
        exact le_trans (le_trans hs2 (max_le (le_trans le_rfl (le_max_left _ _))
          (le_trans hvfW (le_max_right _ _)))) le_rfl
    · rw [if_neg hcut]
      have hα'β : max α (max value (c m α)) < β := not_le.mp hcut
      have hrec := ih (max α (max value (c m α))) (max value (c m α))
        (if value < c m α then m else best)
        (fun m' hm' => hc m' (List.mem_cons_of_mem _ hm')) hα'β (le_max_right _ _)
      -- the child's true value bounds its returned score from below in this branch
      have hsβ : c m α < β :=
        lt_of_le_of_lt (le_trans (le_max_right value _) (le_max_right α _)) hα'β
      have hvm : vf m ≤ c m α := by
        rcases le_total β (vf m) with h | h
        · rw [min_eq_left h] at hs1
          exact absurd (lt_of_le_of_lt hs1 hsβ) (lt_irrefl β)
        · rw [min_eq_right h] at hs1; exact hs1
      constructor
      · refine le_trans ?_ hrec.1
        exact min_le_min le_rfl (foldlMax_mono _ (max_le_max le_rfl hvm) rest)
      · refine le_trans hrec.2 ?_
        have habs : rest.foldl (fun acc m => max acc (vf m)) (max value (vf m)) =
            max value (rest.foldl (fun acc m => max acc (vf m)) (vf m)) :=
          foldlMax_absorb _ _ _ _
        have hF : vf m ≤ rest.foldl (fun acc m => max acc (vf m)) (vf m) := le_foldlMax _ _ _
        have hW : rest.foldl (fun acc m => max acc (vf m)) (vf m) ≤
            rest.foldl (fun acc m => max acc (vf m)) (max value (vf m)) :=
          foldlMax_mono _ (le_max_right _ _) rest
        refine max_le (max_le (le_max_left _ _) ?_) ?_
        · -- max value (c m α) ≤ max α W
          refine max_le (le_trans hva (le_max_left _ _)) ?_
          refine le_trans hs2 (max_le (le_max_left _ _) ?_)
          exact le_trans (le_trans hF hW) (le_max_right _ _)
        · -- W' ≤ max α W
          have h1 : rest.foldl (fun acc m => max acc (vf m)) (max value (c m α)) ≤
              rest.foldl (fun acc m => max acc (vf m)) (max α (vf m)) :=
            foldlMax_mono _ (max_le (le_trans hva (le_max_left _ _)) hs2) rest
          refine le_trans h1 ?_
          rw [foldlMax_absorb]
          exact max_le (le_max_left _ _) (le_trans hW (le_max_right _ _))

theorem abMinLoop_bounds (c : Fin COLS → Score → Score) (vf : Fin COLS → Score) (α : Score) :
    ∀ (ms : List (Fin COLS)) (β value : Score) (best : Fin COLS),
      (∀ m ∈ ms, ∀ bb, α < bb → min bb (vf m) ≤ c m bb ∧ c m bb ≤ max α (vf m)) →
      α < β → β ≤ value →
      min β (ms.foldl (fun acc m => min acc (vf m)) value) ≤ (abMinLoop c α ms β value best).1 ∧
      (abMinLoop c α ms β value best).1 ≤
        max α (ms.foldl (fun acc m => min acc (vf m)) value) := by
  intro ms
  induction ms with
  | nil =>
    intro β value best _ hαβ hbv
    exact ⟨min_le_right _ _, le_max_right _ _⟩
  | cons m rest ih =>
    intro β value best hc hαβ hbv
    obtain ⟨hs1, hs2⟩ := hc m (List.mem_cons_self m rest) β hαβ
    simp only [abMinLoop, ite_lt_eq_min, List.foldl_cons]
    by_cases hcut : min β (min value (c m β)) ≤ α
    · rw [if_pos hcut]
      constructor
      · have hW_le : rest.foldl (fun acc m => min acc (vf m)) (min value (vf m)) ≤
            min value (vf m) := foldlMin_le _ _ _
        calc min β (rest.foldl (fun acc m => min acc (vf m)) (min value (vf m)))
            ≤ min β (min value (vf m)) := min_le_min le_rfl hW_le
          _ = min value (min β (vf m)) := inf_left_comm β value (vf m)
          _ ≤ min value (c m β) := min_le_min le_rfl hs1
      · have hv'α : min value (c m β) ≤ α := by
          rcases min_le_iff.mp hcut with h | h
          · exact absurd h (not_le.mpr hαβ)
          · exact h
        exact le_trans hv'α (le_max_left _ _)
    · rw [if_neg hcut]
      have hα'β : α < min β (min value (c m β)) := not_le.mp hcut
      have hrec := ih (min β (min value (c m β))) (min value (c m β))
        (if c m β < value then m else best)
        (fun m' hm' => hc m' (List.mem_cons_of_mem _ hm')) hα'β (min_le_right _ _)
      have hαs : α < c m β :=
        lt_of_lt_of_le hα'β (le_trans (min_le_right _ _) (min_le_right _ _))
      have hvm : c m β ≤ vf m := by
        rcases le_total (vf m) α with h | h
        · rw [max_eq_left h] at hs2
          exact absurd (lt_of_lt_of_le hαs hs2) (lt_irrefl α)
        · rw [max_eq_right h] at hs2; exact hs2
      have hmono : min value (c m β) ≤ min value (vf m) := min_le_min le_rfl hvm
      have hWinit : rest.foldl (fun acc m => min acc (vf m)) (min value (vf m)) ≤
          min value (vf m) := foldlMin_le _ _ _
      have hsub1 : min β (rest.foldl (fun acc m => min acc (vf m)) (min value (vf m))) ≤
          min value (c m β) := by
        calc min β (rest.foldl (fun acc m => min acc (vf m)) (min value (vf m)))
            ≤ min β (min value (vf m)) := min_le_min le_rfl hWinit
          _ = min value (min β (vf m)) := inf_left_comm β value (vf m)
          _ ≤ min value (c m β) := min_le_min le_rfl hs1
      have hsub2 : min β (rest.foldl (fun acc m => min acc (vf m)) (min value (vf m))) ≤
          rest.foldl (fun acc m => min acc (vf m)) (min value (c m β)) := by
        have habs : rest.foldl (fun acc m => min acc (vf m)) (min β (min value (vf m))) =
            min β (rest.foldl (fun acc m => min acc (vf m)) (min value (vf m))) :=
          foldlMin_absorb _ _ _ _
        have h1 : rest.foldl (fun acc m => min acc (vf m)) (min β (min value (vf m))) ≤
            rest.foldl (fun acc m => min acc (vf m)) (min value (c m β)) := by
          refine foldlMin_mono _ ?_ rest
          rw [inf_left_comm]
          exact min_le_min le_rfl hs1
        rwa [habs] at h1
      constructor
      · refine le_trans ?_ hrec.1
        exact le_min (le_min (min_le_left _ _) hsub1) hsub2
      · refine le_trans hrec.2 ?_
        exact max_le_max le_rfl (foldlMin_mono _ hmono rest)

theorem minimax_bounds :
    ∀ (d : Nat) (b : Board) (α β : Score) (maxim : Bool) (ver : Nat), α < β →
      min β (mmV d b maxim) ≤ (minimax b d α β maxim false ver).1 ∧
      (minimax b d α β maxim false ver).1 ≤ max α (mmV d b maxim) := by
  intro d
  induction d with
  | zero =>
    intro b α β maxim ver hαβ
    simp only [minimax, mmV, Bool.false_eq_true, if_false]
    exact ⟨min_le_right _ _, le_max_right _ _⟩
  | succ d ih =>
    intro b α β maxim ver hαβ
    by_cases hterm : is_terminal_node b = true
    · simp only [minimax, mmV, Bool.false_eq_true, if_false, hterm, if_true]
      exact ⟨min_le_right _ _, le_max_right _ _⟩
    · rw [Bool.not_eq_true] at hterm
      cases maxim with
      | true =>
        have hchild : ∀ m ∈ orderedMoves b true ver, ∀ a, a < β →
            min β (mmV d (make_move b m Cell.ai) false) ≤
              (minimax (make_move b m Cell.ai) d a β false false ver).1 ∧
            (minimax (make_move b m Cell.ai) d a β false false ver).1 ≤
              max a (mmV d (make_move b m Cell.ai) false) :=
          fun m _ a ha => ih (make_move b m Cell.ai) a β false ver ha
        have hloop := abMaxLoop_bounds
          (fun m a => (minimax (make_move b m Cell.ai) d a β false false ver).1)
          (fun m => mmV d (make_move b m Cell.ai) false) β
          (orderedMoves b true ver) α negInf ((orderedMoves b true ver).headD 0)
          hchild hαβ bot_le
        have hW := foldlMax_perm (fun m => mmV d (make_move b m Cell.ai) false)
          (orderedMoves_perm b true ver) negInf
        rw [hW] at hloop
        simp only [minimax, mmV, Bool.false_eq_true, if_false, hterm, if_true]
        exact hloop
      | false =>
        have hchild : ∀ m ∈ orderedMoves b false ver, ∀ bb, α < bb →
            min bb (mmV d (make_move b m Cell.human) true) ≤
              (minimax (make_move b m Cell.human) d α bb true false ver).1 ∧
            (minimax (make_move b m Cell.human) d α bb true false ver).1 ≤
              max α (mmV d (make_move b m Cell.human) true) :=
          fun m _ bb hbb => ih (make_move b m Cell.human) α bb true ver hbb
        have hloop := abMinLoop_bounds
          (fun m bb => (minimax (make_move b m Cell.human) d α bb true false ver).1)
          (fun m => mmV d (make_move b m Cell.human) true) α
          (orderedMoves b false ver) β posInf ((orderedMoves b false ver).headD 0)
          hchild hαβ (le_posInf β)
        have hW := foldlMin_perm (fun m => mmV d (make_move b m Cell.human) true)
          (orderedMoves_perm b false ver) posInf
        rw [hW] at hloop
        simp only [minimax, mmV, Bool.false_eq_true, if_false, hterm, if_true]
        exact hloop

theorem minimax_full_window (b : Board) (d : Nat) (maxim : Bool) (ver : Nat) :
    (minimax b d negInf posInf maxim false ver).1 = mmV d b maxim := by
  obtain ⟨h1, h2⟩ := minimax_bounds d b negInf posInf maxim ver negInf_lt_posInf
  rw [min_eq_right (le_posInf _)] at h1
  rw [max_eq_right (negInf_le _)] at h2
  exact le_antisymm h2 h1

/-! ### Properties of the bottom-up placement scan -/

theorem lowestEmptyAux_none (b : Board) (c : Fin COLS) :
    ∀ (k : Nat) (h : k ≤ ROWS), lowestEmptyAux b c k h = none →
      ∀ (j : Nat) (hj : j < k), b ⟨j, by omega⟩ c ≠ Cell.empty := by
  intro k
  induction k with
  | zero => intro h _ j hj; omega
  | succ k ih =>
    intro h hnone j hj
    simp only [lowestEmptyAux] at hnone
    split at hnone
    · exact absurd hnone (by simp)
    next hk =>
      rcases Nat.lt_succ_iff_lt_or_eq.mp hj with h1 | h1
      · exact ih _ hnone j h1
      · subst h1; exact hk

theorem lowestEmptyAux_some (b : Board) (c : Fin COLS) :
    ∀ (k : Nat) (h : k ≤ ROWS) (r : Fin ROWS), lowestEmptyAux b c k h = some r →
      b r c = Cell.empty ∧ r.1 < k ∧
        ∀ (j : Nat) (hj1 : r.1 < j) (hj2 : j < k), b ⟨j, by omega⟩ c ≠ Cell.empty := by
  intro k
  induction k with
  | zero => intro h r hr; exact absurd hr (by simp [lowestEmptyAux])
  | succ k ih =>
    intro h r hr
    simp only [lowestEmptyAux] at hr
    split at hr
    next hk =>
      obtain rfl : (⟨k, by omega⟩ : Fin ROWS) = r := Option.some.inj hr
      refine ⟨hk, Nat.lt_succ_self k, ?_⟩
      intro j hj1 hj2
      have hj1' : k < j := hj1
      exact absurd hj2 (by omega)
    next hk =>
      obtain ⟨h1, h2, h3⟩ := ih (by omega) r hr
      refine ⟨h1, by omega, ?_⟩
      intro j hj1 hj2
      rcases Nat.lt_succ_iff_lt_or_eq.mp hj2 with h4 | h4
      · exact h3 j hj1 h4
      · subst h4; exact hk

theorem make_move_of_full (b : Board) (c : Fin COLS) (p : Cell)
    (hfull : ∀ r : Fin ROWS, b r c ≠ Cell.empty) : make_move b c p = b := by
  unfold make_move
  split
  · rfl
  next r heq => exact absurd (lowestEmptyAux_some b c ROWS (by omega) r heq).1 (hfull r)

theorem make_move_of_playable (b : Board) (c : Fin COLS) (p : Cell)
    (hv : is_valid_move b c = true) :
    ∃ r : Fin ROWS, b r c = Cell.empty ∧
      (∀ j : Fin ROWS, r.1 < j.1 → b j c ≠ Cell.empty) ∧
      make_move b c p = setCell b r c p := by
  have h0 : b 0 c = Cell.empty := by simpa [is_valid_move] using hv
  unfold make_move
  split
  next heq =>
    exact absurd h0 (lowestEmptyAux_none b c ROWS (by omega) heq 0 (by decide))
  next r heq =>
    obtain ⟨h1, _, h3⟩ := lowestEmptyAux_some b c ROWS (by omega) r heq
    exact ⟨r, h1, fun j hj => h3 j.1 hj j.isLt, rfl⟩

/-! ### Counting and list-lookup helpers -/

theorem countP_eq_of_agree {α : Type*} (q p : α → Bool) :
    ∀ l : List α, (∀ y ∈ l, q y = p y) → l.countP q = l.countP p := by
  intro l
  induction l with
  | nil => intro _; rfl
  | cons x rest ih =>
    intro h
    rw [List.countP_cons, List.countP_cons, h x (List.mem_cons_self x rest),
      ih fun y hy => h y (List.mem_cons_of_mem _ hy)]

theorem countP_update_one {α : Type*} (q p : α → Bool) (a : α) :
    ∀ l : List α, l.Nodup → a ∈ l → p a = false → q a = true →
      (∀ x ∈ l, x ≠ a → q x = p x) → l.countP q = l.countP p + 1 := by
  intro l
  induction l with
  | nil => intro _ ha; exact absurd ha (List.not_mem_nil a)
  | cons x rest ih =>
    intro hnd ha hp hq hagree
    rcases List.mem_cons.mp ha with rfl | hmem
    · have hxrest := (List.nodup_cons.mp hnd).1
      have hrest : ∀ y ∈ rest, q y = p y := fun y hy =>
        hagree y (List.mem_cons_of_mem _ hy) fun hyx => hxrest (hyx ▸ hy)
      rw [List.countP_cons, List.countP_cons, hp, hq,
        countP_eq_of_agree q p rest hrest]
      simp
    · have hxa : x ≠ a := fun h => (List.nodup_cons.mp hnd).1 (h ▸ hmem)
      have hqp : q x = p x := hagree x (List.mem_cons_self _ _) hxa
      have hrec := ih (List.nodup_cons.mp hnd).2 hmem hp hq
        fun y hy hne => hagree y (List.mem_cons_of_mem _ hy) hne
      rw [List.countP_cons, List.countP_cons, hqp, hrec]
      omega

theorem getD_append_of_lt {α : Type*} (l l' : List α) (d : α) :
    ∀ n, n < l.length → (l ++ l').getD n d = l.getD n d := by
  induction l with
  | nil => intro n h; exact absurd h (by simp)
  | cons x rest ih =>
    intro n h
    cases n with
    | zero => rfl
    | succ n => exact ih n (by simpa using h)

theorem getD_set_ne_addr {α : Type*} (v d : α) :
    ∀ (l : List α) (i n : Nat), n ≠ i → (l.set i v).getD n d = l.getD n d := by
  intro l
  induction l with
  | nil => intro i n _; rfl
  | cons x rest ih =>
    intro i n hne
    cases i with
    | zero =>
      cases n with
      | zero => exact absurd rfl hne
      | succ n => rfl
    | succ i =>
      cases n with
      | zero => rfl
      | succ n => exact ih i n (by omega)

/-! ### The claims -/

/-- C1: for every board and every fixed search depth, with no time pressure,
the plain alpha-beta variant (version 1) and the move-ordering variant
(version 2) of `minimax` return exactly the same score (at the full
`(-inf, inf)` window the iterative-deepening driver always passes). -/
theorem C1_variant_scores_agree (b : Board) (d : Nat) (maxim : Bool) :
    (minimax b d negInf posInf maxim false 1).1 =
      (minimax b d negInf posInf maxim false 2).1 := by
  rw [minimax_full_window, minimax_full_window]

/-- C2, counterexample: `check_tie` is not "full and nobody has won": the
all-human board is full and won, yet `check_tie` still reports `true`. -/
theorem C2_counterexample :
    ¬ ∀ b : Board, check_tie b = true ↔
        ((∀ c : Fin COLS, b 0 c ≠ Cell.empty) ∧ check_win b Cell.human = false ∧
          check_win b Cell.ai = false) := by
  intro h
  have h2 := (h fullHumanBoard).mp (by decide)
  exact absurd h2.2.1 (by decide)

/-- C2, amended: `check_tie` returns true iff every column's top cell is
occupied; it does not consult `check_win` at all. -/
theorem C2_check_tie_amended (b : Board) :
    check_tie b = true ↔ ∀ c : Fin COLS, b 0 c ≠ Cell.empty := by
  simp [check_tie]

/-- C3, counterexample: calling `make_move` on a full column is silently
ignored — it returns normally and the position is unchanged. -/
theorem C3_counterexample :
    is_valid_move colFullBoard 0 = false ∧
      make_move colFullBoard 0 Cell.ai = colFullBoard := by
  constructor
  · decide
  · decide

/-- C3, amended: on any board satisfying the gravity invariant, `make_move` on
a non-playable (full) column returns normally with the position unchanged —
no error is signalled. -/
theorem C3_make_move_full_amended (b : Board) (c : Fin COLS) (p : Cell)
    (hg : Grav b) (hv : is_valid_move b c = false) : make_move b c p = b := by
  apply make_move_of_full
  intro r
  have h0 : b 0 c ≠ Cell.empty := by
    intro h
    rw [is_valid_move] at hv
    simp [h] at hv
  exact hg c 0 r (Nat.zero_le _) h0

/-- C3, witness for the amended theorem at a concrete full column. -/
theorem C3_amended_witness : make_move colFullBoard 0 Cell.human = colFullBoard :=
  C3_make_move_full_amended colFullBoard 0 Cell.human (by unfold Grav; decide) (by decide)

/-- C4, counterexample: `is_valid_move` on an out-of-range column does not
return false: index 5 raises `IndexError`, and index -1 wraps around to
column 4 and reports it playable on the empty board. -/
theorem C4_counterexample :
    is_valid_move_py create_board 5 = none ∧
      is_valid_move_py create_board (-1) = some true := by
  constructor
  · decide
  · decide

/-- C4, amended: for `col ≥ 5` or `col < -5` the query raises `IndexError`
(returns no value); for `-5 ≤ col < 0` Python's negative indexing wraps around
and the query reports column `col + 5`; only `0 ≤ col < 5` reports column
`col` itself. It never converts an out-of-range index into `false`. -/
theorem C4_is_valid_move_py_amended (b : Board) (col : Int) :
    ((col < -(COLS : Int) ∨ (COLS : Int) ≤ col) → is_valid_move_py b col = none) ∧
    (∀ h : -(COLS : Int) ≤ col ∧ col < 0,
      is_valid_move_py b col = some (is_valid_move b ⟨(col + COLS).toNat, by omega⟩)) ∧
    (∀ h : 0 ≤ col ∧ col < (COLS : Int),
      is_valid_move_py b col = some (is_valid_move b ⟨col.toNat, by omega⟩)) := by
  refine ⟨?_, ?_, ?_⟩
  · intro h
    unfold is_valid_move_py pyIndexFin
    rw [dif_neg (by omega), dif_neg (by omega)]
    rfl
  · intro h
    unfold is_valid_move_py pyIndexFin is_valid_move
    rw [dif_neg (by omega), dif_pos (by omega)]
    rfl
  · intro h
    unfold is_valid_move_py pyIndexFin is_valid_move
    rw [dif_pos (by omega)]
    rfl

/-- C4, witness for the amended theorem at columns 7, -2 and 3. -/
theorem C4_amended_witness :
    is_valid_move_py create_board 7 = none ∧
      is_valid_move_py create_board (-2) =
        some (is_valid_move create_board ⟨3, by decide⟩) ∧
      is_valid_move_py create_board 3 =
        some (is_valid_move create_board ⟨3, by decide⟩) := by
  refine ⟨(C4_is_valid_move_py_amended create_board 7).1 (Or.inr (by decide)), ?_, ?_⟩
  · exact (C4_is_valid_move_py_amended create_board (-2)).2.1 ⟨by decide, by decide⟩
  · exact (C4_is_valid_move_py_amended create_board 3).2.2 ⟨by decide, by decide⟩

/-- C5, counterexample: `minimax` returns a `None` move at a depth-0 call on
the empty board, although every column is a legal move. -/
theorem C5_counterexample :
    (minimax create_board 0 negInf posInf true false 1).2 = none ∧
      get_valid_moves create_board ≠ [] := by
  constructor
  · rfl
  · decide

/-- C5, amended: with no time pressure, a `None` move is returned only by the
leaf branch — whenever the remaining depth is positive and the position is not
terminal, `minimax` returns an actual move. -/
theorem C5_some_move_amended (b : Board) (d : Nat) (α β : Score) (maxim : Bool)
    (ver : Nat) (hterm : is_terminal_node b = false) :
    (minimax b (d + 1) α β maxim false ver).2 ≠ none := by
  simp only [minimax, Bool.false_eq_true, if_false, hterm]
  cases maxim <;> simp

/-- C5, witness for the amended theorem: a depth-1 search of the empty board
returns a move. -/
theorem C5_amended_witness :
    (minimax create_board 1 negInf posInf true false 1).2 ≠ none :=
  C5_some_move_amended create_board 0 negInf posInf true 1 (by decide)

/-- C6: `get_valid_moves` returns exactly the columns for which
`is_valid_move` holds, in strictly ascending order. -/
theorem C6_get_valid_moves_spec (b : Board) :
    (∀ c : Fin COLS, c ∈ get_valid_moves b ↔ is_valid_move b c = true) ∧
      (get_valid_moves b).Sorted (· < ·) := by
  constructor
  · intro c
    simp [get_valid_moves, List.mem_filter, List.mem_finRange]
  · exact (List.pairwise_lt_finRange COLS).filter _

/-- C7: `make_move` on a playable column adds exactly one occupied cell to that
column and leaves every cell of every other column unchanged. -/
theorem C7_make_move_frame (b : Board) (c : Fin COLS) (p : Cell)
    (hp : p = Cell.human ∨ p = Cell.ai) (hv : is_valid_move b c = true) :
    colCount (make_move b c p) c = colCount b c + 1 ∧
      ∀ (r : Fin ROWS) (c' : Fin COLS), c' ≠ c → make_move b c p r c' = b r c' := by
  obtain ⟨r0, hr1, _, hr3⟩ := make_move_of_playable b c p hv
  have hpne : p ≠ Cell.empty := by rcases hp with rfl | rfl <;> simp
  constructor
  · rw [hr3]
    unfold colCount
    refine countP_update_one _ _ r0 _ (List.nodup_finRange ROWS)
      (List.mem_finRange r0) ?_ ?_ ?_
    · simp [hr1]
    · simp [setCell, hpne]
    · intro x _ hne
      simp [setCell, hne]
  · intro r c' hc'
    rw [hr3]
    simp [setCell, hc']

/-- C7, witness at the empty board and column 2. -/
theorem C7_witness :
    colCount (make_move create_board 2 Cell.ai) 2 = colCount create_board 2 + 1 :=
  (C7_make_move_frame create_board 2 Cell.ai (Or.inr rfl) (by decide)).1

/-- C8: the gravity invariant holds for `create_board` and is preserved by
`make_move` on a playable column, so it holds on every reachable board. -/
theorem C8_gravity_invariant : Grav create_board ∧
    ∀ (b : Board) (c : Fin COLS) (p : Cell), Grav b → (p = Cell.human ∨ p = Cell.ai) →
      is_valid_move b c = true → Grav (make_move b c p) := by
  constructor
  · intro c r r' _ hocc
    exact absurd rfl hocc
  · intro b c p hg hp hv
    obtain ⟨r0, hr1, hr2, hr3⟩ := make_move_of_playable b c p hv
    have hpne : p ≠ Cell.empty := by rcases hp with rfl | rfl <;> simp
    rw [hr3]
    intro c2 r r' hle hocc
    by_cases hc2 : c2 = c
    · subst hc2
      by_cases hr' : r' = r0
      · subst hr'
        simp [setCell, hpne]
      · have hcell : setCell b r0 c2 p r' c2 = b r' c2 := by simp [setCell, hr']
        rw [hcell]
        by_cases hr : r = r0
        · subst hr
          refine hr2 r' (Nat.lt_of_le_of_ne hle ?_)
          intro heq
          exact hr' (Fin.ext heq.symm)
        · have hocc' : b r c2 ≠ Cell.empty := by
            have hcell2 : setCell b r0 c2 p r c2 = b r c2 := by simp [setCell, hr]
            rwa [hcell2] at hocc
          exact hg c2 r r' hle hocc'
    · have h1 : setCell b r0 c p r c2 = b r c2 := by simp [setCell, hc2]
      have h2 : setCell b r0 c p r' c2 = b r' c2 := by simp [setCell, hc2]
      rw [h2]
      rw [h1] at hocc
      exact hg c2 r r' hle hocc

/-- C8, witness: gravity after one move on the empty board. -/
theorem C8_witness : Grav (make_move create_board 0 Cell.ai) :=
  C8_gravity_invariant.2 create_board 0 Cell.ai C8_gravity_invariant.1
    (Or.inr rfl) (by decide)

/-- C9: `evaluate_window` computes exactly the sum described by the spec: an
exclusive +100 / +5 / +2 own-piece term plus an independent −4 opponent-threat
term, all conditions stated on the four cells of the window. -/
theorem C9_evaluate_window_spec (a b c d p : Cell)
    (hp : p = Cell.human ∨ p = Cell.ai) :
    evaluate_window [a, b, c, d] p =
      (if a = p ∧ b = p ∧ c = p ∧ d = p then (100 : Int)
       else if [a, b, c, d].count p = 3 ∧ [a, b, c, d].count Cell.empty = 1 then 5
       else if [a, b, c, d].count p = 2 ∧ [a, b, c, d].count Cell.empty = 2 then 2
       else 0)
      + (if [a, b, c, d].count (if p = Cell.ai then Cell.human else Cell.ai) = 3 ∧
            [a, b, c, d].count Cell.empty = 1 then -4 else 0) := by
  rcases hp with rfl | rfl <;> revert a b c d <;> decide

/-- C9, witness at the window `[ai, ai, ai, empty]` for the AI piece. -/
theorem C9_witness :
    evaluate_window [Cell.ai, Cell.ai, Cell.ai, Cell.empty] Cell.ai = 5 := by
  rw [C9_evaluate_window_spec Cell.ai Cell.ai Cell.ai Cell.empty Cell.ai (Or.inr rfl)]
  decide

/-- C10: `make_move` never mutates its input board. In the heap model, every
row reachable from the input board reference holds exactly the same value
after the call: the deep copy allocates fresh rows and the single write targets
one of the fresh rows. -/
theorem C10_no_input_mutation (rows : List (List Cell)) (bref : List Nat)
    (col : Nat) (p : Cell) (href : ∀ a ∈ bref, a < rows.length) :
    ∀ a ∈ bref, rowVal (make_move_heap rows bref col p).1 a = rowVal rows a := by
  intro a ha
  have halen : a < rows.length := href a ha
  cases hfind : findFromBottom (List.map (rowVal rows) bref) col with
  | none =>
    simp only [make_move_heap, hfind]
    unfold rowVal
    exact getD_append_of_lt rows _ [] a halen
  | some r =>
    simp only [make_move_heap, hfind]
    unfold rowVal
    rw [getD_set_ne_addr _ _ _ _ _ (by omega)]
    exact getD_append_of_lt rows _ [] a halen

/-- C10, witness: the first row of a concrete six-row board is unchanged by a
move in column 2. -/
theorem C10_witness :
    rowVal (make_move_heap (List.replicate ROWS (List.replicate COLS Cell.empty))
      [0, 1, 2, 3, 4, 5] 2 Cell.ai).1 0 =
    rowVal (List.replicate ROWS (List.replicate COLS Cell.empty)) 0 :=
  C10_no_input_mutation _ _ 2 Cell.ai (by decide) 0 (by decide)
